import Mathlib

/-!
Shallow embedding of the core of the `puff` configuration tool
(Go sources under `internal/` and `pkg/`), together with theorems
checking the natural-language specification against it.

Modelled components:
* the deep-merge of the precedence resolver (`config.merge` / `config.mergeMap`),
* the candidate-location list built by `config.Load`,
* the load loop of `config.Load` / `config.loadFile` over an abstract document store,
* the template engine (`templating.Resolver.Resolve` / `resolveValue`),
* the output formatter for the `.env` encoding (`output.formatEnv` and friends),
* the recipient-lifecycle operations (`keys.RemoveKey`, `keys.removeKeyFromFile`,
  `keys.RemoveKeyFromSOPSConfig`),
* the underscore filtering of `generate` and the lookup of `get`.

Go's `map[string]interface{}` values are modelled as association lists
`List (String × Value)`; Go guarantees unique keys, which appears below as
`Nodup` hypotheses where a theorem needs it.  Go's randomized map iteration
order is fixed to list order, which is one of the orders Go may use.
-/

namespace Puff

/-- A YAML-decoded value, as `interface{}` in the Go code: a string, an
integer, a boolean, a nested mapping, or a sequence. -/
inductive Value where
  | str (s : String)
  | num (n : Int)
  | boolean (b : Bool)
  | map (entries : List (String × Value))
  | seq (items : List Value)
deriving Repr

/-- Association-list lookup: Go's `m[key]` read on a `map[string]interface{}`. -/
def lookupVal : List (String × Value) → String → Option Value
  | [], _ => none
  | (k, v) :: rest, key => if k = key then some v else lookupVal rest key

/-- Association-list update: Go's `m[key] = v` map assignment.  Replaces the
binding when the key is present, otherwise appends it. -/
def setVal : List (String × Value) → String → Value → List (String × Value)
  | [], key, v => [(key, v)]
  | (k, w) :: rest, key, v =>
      if k = key then (key, v) :: rest else (k, w) :: setVal rest key v

mutual

/-- `config.merge` / `config.mergeMap` (resolver.go): fold the incoming
entries into the existing map, one key at a time. -/
def mergeEntries (existing : List (String × Value)) :
    List (String × Value) → List (String × Value)
  | [] => existing
  | (k, v) :: rest => mergeEntries (mergeOne existing k v) rest
termination_by l => sizeOf l
decreasing_by all_goals (simp_wf; try omega)

/-- One key of the deep merge: if both the existing and the incoming value at
the key are nested maps, merge them recursively; otherwise the incoming value
replaces the existing binding (`config.merge`'s per-key branch). -/
def mergeOne (existing : List (String × Value)) (k : String) (v : Value) :
    List (String × Value) :=
  match lookupVal existing k, v with
  | some (Value.map em), Value.map nm => setVal existing k (Value.map (mergeEntries em nm))
  | _, _ => setVal existing k v
termination_by sizeOf v
decreasing_by all_goals (simp_wf; try omega)

end

/-- The per-key result the spec describes for the deep merge: when both sides
hold nested maps the result is their recursive merge, in every other
combination the incoming side wins (and an absent incoming key keeps the
existing binding). -/
def mergeLookupSpec (a b : Option Value) : Option Value :=
  match a, b with
  | some (Value.map em), some (Value.map nm) => some (Value.map (mergeEntries em nm))
  | _, some v => some v
  | some v, none => some v
  | none, none => none

/-- `config.LoadContext`: the query context of a resolution. -/
structure LoadContext where
  rootDir : String
  app : String
  env : String
  target : String

/-- A document location, as the list of path components that Go joins with
`filepath.Join`. -/
abbrev Path := List String

/-- The candidate-location list built at the top of `config.Load`, translated
append by append: six tiers, each guarded exactly as in the Go code, with the
target tiers substituting the fixed segment `"base"` for an absent env. -/
def filesToLoad (ctx : LoadContext) : List Path :=
  let l := [[ctx.rootDir, "base", "shared.yml"]]
  let l := if ctx.app ≠ "" then l ++ [[ctx.rootDir, "base", ctx.app ++ ".yml"]] else l
  let l := if ctx.env ≠ "" then l ++ [[ctx.rootDir, ctx.env, "shared.yml"]] else l
  let l := if ctx.env ≠ "" ∧ ctx.app ≠ "" then
    l ++ [[ctx.rootDir, ctx.env, ctx.app ++ ".yml"]] else l
  let l := if ctx.target ≠ "" then
    let targetEnv := if ctx.env = "" then "base" else ctx.env
    l ++ [[ctx.rootDir, "target-overrides", ctx.target, targetEnv, "shared.yml"]] else l
  let l := if ctx.target ≠ "" ∧ ctx.app ≠ "" then
    let targetEnv := if ctx.env = "" then "base" else ctx.env
    l ++ [[ctx.rootDir, "target-overrides", ctx.target, targetEnv, ctx.app ++ ".yml"]] else l
  l

/-- The six-tier location list as §4.1 of the spec words it: base/shared, then
base/app when an app is supplied, then env/shared and env/app when the
respective axes are supplied, then the two target tiers (shared, then app)
when a target is supplied, using env or the fixed `"base"` fallback. -/
def specLocations (ctx : LoadContext) : List Path :=
  let envOrBase := if ctx.env = "" then "base" else ctx.env
  [[ctx.rootDir, "base", "shared.yml"]]
  ++ (if ctx.app = "" then [] else [[ctx.rootDir, "base", ctx.app ++ ".yml"]])
  ++ (if ctx.env = "" then [] else [[ctx.rootDir, ctx.env, "shared.yml"]])
  ++ (if ctx.env = "" ∨ ctx.app = "" then [] else [[ctx.rootDir, ctx.env, ctx.app ++ ".yml"]])
  ++ (if ctx.target = "" then [] else
        [[ctx.rootDir, "target-overrides", ctx.target, envOrBase, "shared.yml"]])
  ++ (if ctx.target = "" ∨ ctx.app = "" then [] else
        [[ctx.rootDir, "target-overrides", ctx.target, envOrBase, ctx.app ++ ".yml"]])

/-! ### Template engine (`templating/resolver.go`) -/

/-- The names captured by `templateVarRegex.FindAllStringSubmatch`: the
left-to-right non-overlapping matches of the pattern dollar, open brace, one
or more non-closing-brace characters, closing brace.  On a failed partial
match the scan resumes one character further, as a regex engine does. -/
def scanTemplates : List Char → List String
  | '$' :: '{' :: rest =>
      let name := rest.takeWhile (fun c => c ≠ '}')
      match rest.drop name.length with
      | '}' :: _ =>
          if name.isEmpty then scanTemplates ('{' :: rest)
          else String.mk name :: scanTemplates (rest.drop (name.length + 1))
      | _ => scanTemplates ('{' :: rest)
  | _ :: rest => scanTemplates rest
  | [] => []
termination_by l => l.length
decreasing_by all_goals (simp_wf; try omega)

/-- Go's `strings.ReplaceAll` on character lists: replace the
non-overlapping, left-to-right occurrences of `pat`; replacements are not
rescanned. -/
def replaceAllChars (s pat rep : List Char) : List Char :=
  match s with
  | [] => []
  | c :: rest =>
      if _h : pat.isPrefixOf (c :: rest) ∧ 0 < pat.length then
        rep ++ replaceAllChars ((c :: rest).drop pat.length) pat rep
      else
        c :: replaceAllChars rest pat rep
termination_by s.length
decreasing_by all_goals (simp_wf; try omega)

/-- Lexicographic comparison of character lists by code point; on UTF-8 text
this coincides with Go's byte-wise string order. -/
def charListLe : List Char → List Char → Bool
  | [], _ => true
  | _ :: _, [] => false
  | a :: as, b :: bs =>
      if a < b then true else if b < a then false else charListLe as bs

/-- The string order `sort.Strings` sorts by. -/
def strLe (a b : String) : Prop := charListLe a.data b.data = true

instance : DecidableRel strLe := fun a b =>
  inferInstanceAs (Decidable (charListLe a.data b.data = true))

/-- Go's `sort.Strings`, modelled as an insertion sort over the byte-wise
string order. -/
def sortStrings (l : List String) : List String :=
  List.insertionSort strLe l

/-- Sorting key-tagged entries by their key, as Go renders maps. -/
def sortByKey {β : Type} (l : List (String × β)) : List (String × β) :=
  List.insertionSort (fun a b => strLe a.1 b.1) l

mutual

/-- `fmt.Sprintf` with the `%v` verb on an `interface{}` value: strings print
verbatim, integers and booleans print their literal form, maps print as
`map[k:v ...]` with keys sorted, sequences as `[x y ...]`. -/
def goFormat : Value → String
  | Value.str s => s
  | Value.num n => toString n
  | Value.boolean b => if b then "true" else "false"
  | Value.map es =>
      let rendered := (sortByKey (goFormatEntries es)).map
        (fun p => p.1 ++ ":" ++ p.2)
      "map[" ++ String.intercalate " " rendered ++ "]"
  | Value.seq xs => "[" ++ String.intercalate " " (goFormatItems xs) ++ "]"
termination_by v => sizeOf v
decreasing_by all_goals (simp_wf; try omega)

/-- Render each map entry to a (key, rendered value) pair. -/
def goFormatEntries : List (String × Value) → List (String × String)
  | [] => []
  | (k, v) :: rest => (k, goFormat v) :: goFormatEntries rest
termination_by l => sizeOf l
decreasing_by all_goals (simp_wf; try omega)

/-- Render each sequence item. -/
def goFormatItems : List Value → List String
  | [] => []
  | v :: rest => goFormat v :: goFormatItems rest
termination_by l => sizeOf l
decreasing_by all_goals (simp_wf; try omega)

end

/-- The failures of `Resolver.resolveValue`, with the data the Go error
messages carry: `circular` names the re-encountered key
(`circular dependency detected for variable: <key>`), `undefined` names the
missing reference and the key whose value holds it
(`undefined variable referenced: <name> (in <key>)`).  `outOfFuel` is an
artifact of the fuel-based embedding; the fuel `Resolve` supplies is enough
for every run that Go's recursion finishes. -/
inductive TemplateErr where
  | circular (key : String)
  | undefined (name : String) (key : String)
  | outOfFuel
deriving Repr, DecidableEq

/-- The literal text `${name}` that `match[0]` holds for a captured `name`. -/
def templatePattern (name : String) : List Char :=
  '$' :: '{' :: name.data ++ ['}']

mutual

/-- `Resolver.resolveValue`: fail on a circular reference, pass non-strings
through, otherwise substitute each captured reference after recursively
resolving it.  `values` is the resolver's full map, `resolving` the
currently-resolving set (Go's `resolving` map under `defer delete`). -/
def resolveValue (fuel : Nat) (values : List (String × Value)) (key : String)
    (v : Value) (resolving : List String) : Except TemplateErr Value :=
  match fuel with
  | 0 => Except.error TemplateErr.outOfFuel
  | fuel + 1 =>
      if key ∈ resolving then Except.error (TemplateErr.circular key)
      else
        match v with
        | Value.str s =>
            let names := scanTemplates s.data
            if names.isEmpty then Except.ok (Value.str s)
            else
              match substAll fuel values key names (key :: resolving) s.data with
              | Except.error e => Except.error e
              | Except.ok chars => Except.ok (Value.str (String.mk chars))
        | v => Except.ok v
termination_by (fuel, 0)

/-- The substitution loop over the captured names: look each one up (an
absent key is an undefined-reference error), resolve it recursively, stringify
it and replace every occurrence of its `${...}` text. -/
def substAll (fuel : Nat) (values : List (String × Value)) (key : String)
    (names : List String) (resolving : List String) (cur : List Char) :
    Except TemplateErr (List Char) :=
  match names with
  | [] => Except.ok cur
  | name :: rest =>
      match lookupVal values name with
      | none => Except.error (TemplateErr.undefined name key)
      | some varValue =>
          match resolveValue fuel values name varValue resolving with
          | Except.error e => Except.error e
          | Except.ok rv =>
              substAll fuel values key rest resolving
                (replaceAllChars cur (templatePattern name) (goFormat rv).data)
termination_by (fuel, names.length + 1)

end

/-- The loop body of `Resolver.Resolve`: resolve every entry of the map in
turn, building the fresh `resolved` map. -/
def resolveEntries (fuel : Nat) (values : List (String × Value)) :
    List (String × Value) → Except TemplateErr (List (String × Value))
  | [] => Except.ok []
  | (k, v) :: rest =>
      match resolveValue fuel values k v [] with
      | Except.error e => Except.error e
      | Except.ok rv =>
          match resolveEntries fuel values rest with
          | Except.error e => Except.error e
          | Except.ok rs => Except.ok ((k, rv) :: rs)

/-- `Resolver.Resolve`: resolve each value of the map with an initially empty
currently-resolving set.  The fuel bounds the depth of the reference chain,
which Go bounds by the number of distinct keys. -/
def Resolve (values : List (String × Value)) : Except TemplateErr (List (String × Value)) :=
  resolveEntries (values.length + 1) values values

/-! ### Document store and the load loop of `config.Load` / `config.loadFile` -/

/-- What the document store finds at one location: the file may be absent
(`os.IsNotExist`), unreadable for another reason, SOPS-encrypted but failing
to decrypt, malformed YAML, or a parsed value map. -/
inductive FileData where
  | missing
  | readFailed
  | decryptFailed
  | yamlFailed
  | plain (values : List (String × Value))

/-- The error kinds `loadFile` can surface (everything except a missing
file). -/
inductive LoadErrKind where
  | readFailed
  | decryptFailed
  | yamlFailed
deriving Repr, DecidableEq

/-- A fatal load error: `config.Load` wraps every non-missing `loadFile`
failure as `error loading <path>: ...`, naming the failing location. -/
structure LoadErr where
  path : Path
  kind : LoadErrKind

/-- `delete(values, "sops")` in `loadFile`: strip the SOPS transport
metadata before merging. -/
def stripSops (values : List (String × Value)) : List (String × Value) :=
  values.filter (fun p => p.1 ≠ "sops")

/-- The load-and-merge loop of `config.Load` over an abstract document store
`fs`: a missing location is skipped, any other failure aborts naming the
location, a parsed document is stripped of its `sops` key and deep-merged
into the accumulator. -/
def loadFiles (fs : Path → FileData) : List Path → List (String × Value) →
    Except LoadErr (List (String × Value))
  | [], acc => Except.ok acc
  | p :: rest, acc =>
      match fs p with
      | FileData.missing => loadFiles fs rest acc
      | FileData.readFailed => Except.error ⟨p, LoadErrKind.readFailed⟩
      | FileData.decryptFailed => Except.error ⟨p, LoadErrKind.decryptFailed⟩
      | FileData.yamlFailed => Except.error ⟨p, LoadErrKind.yamlFailed⟩
      | FileData.plain values => loadFiles fs rest (mergeEntries acc (stripSops values))

/-- `config.Load`: build the candidate list from the context and fold the
load loop over it starting from the empty accumulator. -/
def Load (ctx : LoadContext) (fs : Path → FileData) :
    Except LoadErr (List (String × Value)) :=
  loadFiles fs (filesToLoad ctx) []

/-! ### Output formatter (`output/format.go`), `.env` encoding -/

/-- The single-quote character, written by code point. -/
def squote : Char := Char.ofNat 39

/-- JSON string escaping as Go's `encoding/json` does it by default: quote,
backslash, the short control escapes, HTML-escaped angle brackets and
ampersand, `\u00XX` for the remaining control characters, everything else
verbatim. -/
def jsonEscapeChar (c : Char) : List Char :=
  if c = '"' then ['\\', '"']
  else if c = '\\' then ['\\', '\\']
  else if c = '\n' then ['\\', 'n']
  else if c = '\r' then ['\\', 'r']
  else if c = '\t' then ['\\', 't']
  else if c = '<' then "\\u003c".data
  else if c = '>' then "\\u003e".data
  else if c = '&' then "\\u0026".data
  else if c.toNat < 32 then
    let hexDigit (n : Nat) : Char :=
      if n < 10 then Char.ofNat (48 + n) else Char.ofNat (87 + n)
    '\\' :: 'u' :: '0' :: '0' :: [hexDigit (c.toNat / 16), hexDigit (c.toNat % 16)]
  else [c]

/-- A JSON string literal for `s`. -/
def jsonString (s : String) : String :=
  "\"" ++ String.mk (s.data.flatMap jsonEscapeChar) ++ "\""

mutual

/-- Go's `json.Marshal` in compact form: strings as escaped literals,
integers and booleans verbatim, maps as objects with keys sorted, sequences
as arrays. -/
def jsonEncode : Value → String
  | Value.str s => jsonString s
  | Value.num n => toString n
  | Value.boolean b => if b then "true" else "false"
  | Value.map es =>
      let rendered := (sortByKey (jsonEncodeEntries es)).map
        (fun p => jsonString p.1 ++ ":" ++ p.2)
      "\x7b" ++ String.intercalate "," rendered ++ "\x7d"
  | Value.seq xs => "[" ++ String.intercalate "," (jsonEncodeItems xs) ++ "]"
termination_by v => sizeOf v
decreasing_by all_goals (simp_wf; try omega)

/-- Encode each map entry to a (key, encoded value) pair. -/
def jsonEncodeEntries : List (String × Value) → List (String × String)
  | [] => []
  | (k, v) :: rest => (k, jsonEncode v) :: jsonEncodeEntries rest
termination_by l => sizeOf l
decreasing_by all_goals (simp_wf; try omega)

/-- Encode each sequence item. -/
def jsonEncodeItems : List Value → List String
  | [] => []
  | v :: rest => jsonEncode v :: jsonEncodeItems rest
termination_by l => sizeOf l
decreasing_by all_goals (simp_wf; try omega)

end

/-- The value-to-string step of `formatEnv`: strings stay as they are, nested
maps and sequences become their compact JSON text, any other value prints as
`%v`. -/
def encodeEnvValue : Value → String
  | Value.str s => s
  | Value.map es => jsonEncode (Value.map es)
  | Value.seq xs => jsonEncode (Value.seq xs)
  | v => goFormat v

/-- `output.needsQuoting`: `strings.ContainsAny(value, " \t\n\r\"'$\\")`. -/
def needsQuoting (value : String) : Bool :=
  value.data.any (fun c => c ∈ [' ', '\t', '\n', '\r', '"', squote, '$', '\\'])

/-- `output.quoteValue`: escape backslashes, then double quotes, and wrap in
double quotes. -/
def quoteValue (value : String) : String :=
  let e1 := replaceAllChars value.data ['\\'] ['\\', '\\']
  let e2 := replaceAllChars e1 ['"'] ['\\', '"']
  "\"" ++ String.mk e2 ++ "\""

/-- One `KEY=VALUE` line of the `.env` encoding. -/
def envLine (key : String) (v : Value) : String :=
  let valueStr := encodeEnvValue v
  let valueStr := if needsQuoting valueStr then quoteValue valueStr else valueStr
  key ++ "=" ++ valueStr

/-- `output.formatEnv`: collect the keys, sort them, and emit one
`KEY=VALUE` line per key, joined by newlines.  Go indexes the map per sorted
key; the `getD` default is never reached when the keys come from the map
itself. -/
def formatEnv (values : List (String × Value)) : String :=
  let keys := sortStrings (values.map Prod.fst)
  String.intercalate "\n"
    (keys.map (fun k => envLine k ((lookupVal values k).getD (Value.str ""))))

/-- The `.env` encoding as §4.3 of the spec words it: entries in lexicographic
key order, one `KEY=VALUE` line each, a nested map or sequence encoded as its
compact JSON text, and the value wrapped in double quotes with backslashes
and double quotes escaped exactly when some of its characters is whitespace,
a quote, a dollar sign, or a backslash. -/
def formatEnvSpec (values : List (String × Value)) : String :=
  let line (p : String × Value) : String :=
    let s := encodeEnvValue p.2
    let quoted := decide (∃ c ∈ s.data, c ∈ [' ', '\t', '\n', '\r', '"', squote, '$', '\\'])
    p.1 ++ "=" ++ (if quoted then quoteValue s else s)
  String.intercalate "\n" ((sortByKey values).map line)

/-! ### `generate` and `get` (`commands/generate.go`, `commands/get.go`) -/

/-- Does the key start with an underscore byte, as `key[0] == '_'` checks on
a non-empty key? -/
def startsWithUnderscore (key : String) : Bool :=
  match key.data with
  | c :: _ => c = '_'
  | [] => false

/-- The filter `generateAction` applies to the resolved map before
formatting: keep exactly the keys that are non-empty and do not start with an
underscore. -/
def filterExport (values : List (String × Value)) : List (String × Value) :=
  values.filter (fun p => p.1 ≠ "" && !startsWithUnderscore p.1)

/-- The `get` pipeline after loading: resolve the templates and look the
requested key up; `getAction` performs no underscore filtering. -/
def getValue (values : List (String × Value)) (key : String) :
    Except (Option TemplateErr) Value :=
  match Resolve values with
  | Except.error e => Except.error (some e)
  | Except.ok resolved =>
      match lookupVal resolved key with
      | none => Except.error none   -- `key not found: <key>`
      | some v => Except.ok v

/-- The `generate` pipeline after loading: resolve the templates, filter the
internal keys out.  The result is what `generateAction` hands to the output
formatter. -/
def generateExport (values : List (String × Value)) :
    Except TemplateErr (List (String × Value)) :=
  match Resolve values with
  | Except.error e => Except.error e
  | Except.ok resolved => Except.ok (filterExport resolved)

/-! ### Recipient lifecycle (`keys/sops.go`, `keys/sops_config.go`) -/

/-- An encrypted document as the key-removal path sees it: its SOPS key
groups (age recipients) and its encrypted content.  The content is carried
along untouched by recipient edits. -/
structure EncFile where
  keyGroups : List (List String)
  content : List (String × Value)

/-- The one failure of `keys.removeKeyFromFile` on a well-formed document:
`cannot remove the last key from file`. -/
inductive RemoveErr where
  | lastKey
deriving Repr, DecidableEq

/-- `keys.removeKeyFromFile`: drop the recipient from every key group; if it
was not present the file is left as it is; if no key remains the operation
fails before anything is written; otherwise the updated metadata is written
back with the content re-wrapped for the remaining recipients. -/
def removeKeyFromFile (f : EncFile) (ageKey : String) : Except RemoveErr EncFile :=
  let newGroups := f.keyGroups.map (fun g => g.filter (fun k => k ≠ ageKey))
  let found := f.keyGroups.any (fun g => g.any (fun k => k = ageKey))
  if !found then Except.ok f
  else if newGroups.all (fun g => g.isEmpty) then Except.error RemoveErr.lastKey
  else Except.ok { f with keyGroups := newGroups }

/-- The per-file loop of `keys.RemoveKey`: process the matched documents in
order; the first failure aborts, leaving the failing and the remaining
documents as they were, and is surfaced as
`failed to remove key from <path>: ...`, naming the document. -/
def removeKeyFromFiles (files : List (Path × EncFile)) (ageKey : String) :
    List (Path × EncFile) × Option (Path × RemoveErr) :=
  match files with
  | [] => ([], none)
  | (p, f) :: rest =>
      match removeKeyFromFile f ageKey with
      | Except.error e => ((p, f) :: rest, some (p, e))
      | Except.ok f' =>
          let (rest', err) := removeKeyFromFiles rest ageKey
          ((p, f') :: rest', err)

/-- The recipient ledger held in `.sops.yaml`: the authorized keys of the
first creation rule and the per-key comment lines. -/
structure Ledger where
  keys : List String
  comments : List (String × String)

/-- `keys.RemoveKeyFromSOPSConfig`: fail when the key is not listed,
otherwise drop it from the creation rule and from the comments. -/
def removeKeyFromSOPSConfig (led : Ledger) (ageKey : String) : Option Ledger :=
  if ageKey ∈ led.keys then
    some ⟨led.keys.filter (fun k => k ≠ ageKey),
          led.comments.filter (fun p => p.1 ≠ ageKey)⟩
  else none   -- `key not found in .sops.yaml: <key>`

/-- A file on disk, as the walk of `findEncryptedFiles` classifies it: an
encrypted document or anything else (plain YAML, unreadable, non-YAML). -/
inductive DiskFile where
  | enc (f : EncFile)
  | other

/-- Does the last path component carry the `.yml` extension (and not be the
`.sops.yaml` ledger, which the walk skips)? -/
def isYmlPath (p : Path) : Bool :=
  match p.getLast? with
  | some name => ".yml".data.isSuffixOf name.data && name ≠ ".sops.yaml"
  | none => false

/-- The environment-filter match of `findEncryptedFiles`, on the directory
components of the relative path: `base` matches the `base` directory and the
root, a plain environment matches its directory, and a target matches files
directly under `target-overrides/<target>`. -/
def envMatches (envFilter : String) (dir : List String) : Bool :=
  if envFilter = "" then true
  else if envFilter = "base" && (dir = ["base"] || dir = []) then true
  else if dir = [envFilter] then true
  else
    match dir with
    | ["target-overrides", t] => t = envFilter
    | _ => false

/-- `keys.findEncryptedFiles`: the `.yml` files under the root that match the
environment filter and are SOPS-encrypted, in walk order. -/
def findEncryptedFiles (disk : List (Path × DiskFile)) (envFilter : String) :
    List (Path × EncFile) :=
  disk.filterMap (fun pf =>
    match pf with
    | (p, DiskFile.enc f) =>
        if isYmlPath p && envMatches envFilter p.dropLast then some (p, f) else none
    | _ => none)

/-- Replace the disk entries rewritten by the per-file loop. -/
def updateDisk (disk : List (Path × DiskFile)) (upds : List (Path × EncFile)) :
    List (Path × DiskFile) :=
  disk.map (fun pf =>
    match upds.find? (fun u => u.1 = pf.1) with
    | some u => (u.1, DiskFile.enc u.2)
    | none => pf)

/-- The failures `keys.RemoveKey` can surface. -/
inductive RemoveKeyErr where
  | noEncryptedFiles
  | keyNotInLedger
  | fileFailed (path : Path) (e : RemoveErr)
deriving Repr

/-- The state `keys.RemoveKey` operates on: the ledger and the directory
tree. -/
structure KeyState where
  ledger : Ledger
  disk : List (Path × DiskFile)

/-- `keys.RemoveKey`: find the matching encrypted documents (failing when
there are none), update the ledger first, then remove the key from each
document in turn; a per-file failure aborts with the document named, after
the ledger and the earlier documents have already been rewritten. -/
def RemoveKey (st : KeyState) (ageKey envFilter : String) :
    KeyState × Option RemoveKeyErr :=
  let files := findEncryptedFiles st.disk envFilter
  if files.isEmpty then (st, some RemoveKeyErr.noEncryptedFiles)
  else
    match removeKeyFromSOPSConfig st.ledger ageKey with
    | none => (st, some RemoveKeyErr.keyNotInLedger)
    | some led' =>
        let (files', err) := removeKeyFromFiles files ageKey
        ({ ledger := led', disk := updateDisk st.disk files' },
         err.map (fun pe => RemoveKeyErr.fileFailed pe.1 pe.2))

/-! ## Supporting lemmas -/

theorem lookupVal_setVal_self (m : List (String × Value)) (k : String) (v : Value) :
    lookupVal (setVal m k v) k = some v := by
  induction m with
  | nil => simp [setVal, lookupVal]
  | cons p rest ih =>
      obtain ⟨k', w⟩ := p
      by_cases h : k' = k
      · simp [setVal, h, lookupVal]
      · simp [setVal, h, lookupVal, ih]

theorem lookupVal_setVal_ne (m : List (String × Value)) (k k' : String) (v : Value)
    (h : k' ≠ k) : lookupVal (setVal m k' v) k = lookupVal m k := by
  induction m with
  | nil => simp [setVal, lookupVal, h]
  | cons p rest ih =>
      obtain ⟨k'', w⟩ := p
      by_cases h2 : k'' = k'
      · simp [setVal, h2, lookupVal, h]
      · simp [setVal, h2, lookupVal, ih]

theorem lookupVal_mergeOne_self (e : List (String × Value)) (k : String) (v : Value) :
    lookupVal (mergeOne e k v) k = mergeLookupSpec (lookupVal e k) (some v) := by
  rcases he : lookupVal e k with _ | w
  · cases v <;> simp [mergeOne, he, mergeLookupSpec, lookupVal_setVal_self]
  · cases w <;> cases v <;> simp [mergeOne, he, mergeLookupSpec, lookupVal_setVal_self]

theorem lookupVal_mergeOne_ne (e : List (String × Value)) (k k' : String) (v : Value)
    (h : k' ≠ k) : lookupVal (mergeOne e k' v) k = lookupVal e k := by
  rcases he : lookupVal e k' with _ | w
  · cases v <;> simp [mergeOne, he, lookupVal_setVal_ne _ _ _ _ h]
  · cases w <;> cases v <;> simp [mergeOne, he, lookupVal_setVal_ne _ _ _ _ h]

theorem lookupVal_mergeEntries_not_mem (e n : List (String × Value)) (k : String)
    (h : k ∉ n.map Prod.fst) : lookupVal (mergeEntries e n) k = lookupVal e k := by
  induction n generalizing e with
  | nil => rw [mergeEntries]
  | cons p rest ih =>
      obtain ⟨k', v⟩ := p
      simp only [List.map_cons, List.mem_cons] at h
      push_neg at h
      rw [mergeEntries, ih _ h.2, lookupVal_mergeOne_ne _ _ _ _ (fun hk => h.1 hk.symm)]

theorem mergeLookupSpec_none (a : Option Value) : mergeLookupSpec a none = a := by
  rcases a with _ | v
  · rfl
  · cases v <;> rfl

/-! ## Claim theorems -/

/-- C2: the candidate-location list of `config.Load` is exactly the six-tier
list of the spec, lowest precedence first, with tiers 2/4/6 present only for
a non-empty app, tiers 3/4 only for a non-empty env, tiers 5/6 only for a
non-empty target, and the fixed `"base"` segment replacing an empty env in
the target tiers. -/
theorem load_locations_follow_spec (ctx : LoadContext) :
    filesToLoad ctx = specLocations ctx := by
  unfold filesToLoad specLocations
  by_cases ha : ctx.app = "" <;> by_cases he : ctx.env = "" <;>
    by_cases ht : ctx.target = "" <;> simp [ha, he, ht]

/-- C1: the deep merge of the precedence resolver is, per key, the recursive
merge when both sides hold nested maps and replacement by the incoming value
in every other combination, and on the spec's two examples it yields
`{KEY:B}` and `{N:{X:1,Y:3}}`. -/
theorem merge_per_key_semantics :
    (∀ (existing incoming : List (String × Value)) (k : String),
        (incoming.map Prod.fst).Nodup →
        lookupVal (mergeEntries existing incoming) k
          = mergeLookupSpec (lookupVal existing k) (lookupVal incoming k))
    ∧ mergeEntries [("KEY", Value.str "A")] [("KEY", Value.str "B")]
        = [("KEY", Value.str "B")]
    ∧ mergeEntries [("N", Value.map [("X", Value.num 1), ("Y", Value.num 2)])]
        [("N", Value.map [("Y", Value.num 3)])]
        = [("N", Value.map [("X", Value.num 1), ("Y", Value.num 3)])] := by
  refine ⟨?_, by simp [mergeEntries, mergeOne, lookupVal, setVal],
    by simp [mergeEntries, mergeOne, lookupVal, setVal]⟩
  intro existing incoming k h
  induction incoming generalizing existing with
  | nil => rw [mergeEntries, lookupVal, mergeLookupSpec_none]
  | cons p rest ih =>
      obtain ⟨k', v⟩ := p
      simp only [List.map_cons, List.nodup_cons] at h
      rw [mergeEntries]
      by_cases hk : k' = k
      · subst hk
        have hrest : k' ∉ rest.map Prod.fst := h.1
        rw [lookupVal_mergeEntries_not_mem _ _ _ hrest, lookupVal_mergeOne_self]
        simp [lookupVal]
      · rw [ih _ h.2, lookupVal_mergeOne_ne _ _ _ _ hk]
        simp [lookupVal, hk]

/-- C3: a key found in the currently-resolving set fails immediately with a
circular-dependency error naming it, and the spec's two-cycle example
`{A:"$\x7bB\x7d", B:"$\x7bA\x7d"}` (as well as a three-cycle) fails with a
circular error naming the entry key A. -/
theorem circular_reference_error :
    (∀ (fuel : Nat) (values : List (String × Value)) (key : String) (v : Value)
        (resolving : List String), key ∈ resolving →
        resolveValue (fuel + 1) values key v resolving
          = Except.error (TemplateErr.circular key))
    ∧ Resolve [("A", Value.str "$\x7bB\x7d"), ("B", Value.str "$\x7bA\x7d")]
        = Except.error (TemplateErr.circular "A")
    ∧ Resolve [("A", Value.str "$\x7bB\x7d"), ("B", Value.str "$\x7bC\x7d"),
        ("C", Value.str "$\x7bA\x7d")]
        = Except.error (TemplateErr.circular "A") := by
  refine ⟨?_, ?_, ?_⟩
  · intro fuel values key v resolving h
    cases v <;> (rw [resolveValue] <;> simp [h])
  · simp [Resolve, resolveEntries, resolveValue, substAll, scanTemplates,
      String.data, lookupVal, templatePattern]
  · simp [Resolve, resolveEntries, resolveValue, substAll, scanTemplates,
      String.data, lookupVal, templatePattern]

/-- Witness for C3: the general part applied at fuel 0, key `"A"`, the
two-entry example map and the resolving set `["A"]`. -/
theorem circular_reference_error_witness :
    "A" ∈ ["A"]
    ∧ resolveValue 1 [("A", Value.str "$\x7bB\x7d")] "A" (Value.str "$\x7bB\x7d") ["A"]
        = Except.error (TemplateErr.circular "A") :=
  ⟨by decide, circular_reference_error.1 0 _ "A" _ ["A"] (by decide)⟩

theorem substAll_error_of_missing (fuel : Nat) (values : List (String × Value))
    (key : String) (names : List String) (resolving : List String) (cur : List Char)
    (NAME : String) (hmem : NAME ∈ names) (hmiss : lookupVal values NAME = none) :
    ∃ e, substAll fuel values key names resolving cur = Except.error e := by
  induction names generalizing cur with
  | nil => cases hmem
  | cons n rest ih =>
      rw [substAll]
      rcases hn : lookupVal values n with _ | v
      · exact ⟨TemplateErr.undefined n key, by simp [hn]⟩
      · have hne : NAME ≠ n := fun h => by rw [h, hn] at hmiss; cases hmiss
        have hrest : NAME ∈ rest := by
          rcases List.mem_cons.mp hmem with h | h
          · exact absurd h hne
          · exact h
        rcases hr : resolveValue fuel values n v resolving with e | rv
        · exact ⟨e, by simp [hn, hr]⟩
        · rcases ih (replaceAllChars cur (templatePattern n) (goFormat rv).data) hrest
            with ⟨e, he⟩
          exact ⟨e, by simp [hn, hr, he]⟩

theorem resolveValue_error_of_missing (fuel : Nat) (values : List (String × Value))
    (key s : String) (resolving : List String) (NAME : String)
    (hmem : NAME ∈ scanTemplates s.data) (hmiss : lookupVal values NAME = none) :
    ∃ e, resolveValue fuel values key (Value.str s) resolving = Except.error e := by
  cases fuel with
  | zero => exact ⟨TemplateErr.outOfFuel, by rw [resolveValue]⟩
  | succ fuel =>
      by_cases hres : key ∈ resolving
      · exact ⟨TemplateErr.circular key, by rw [resolveValue]; simp [hres]⟩
      · have hne : (scanTemplates s.data).isEmpty = false := by
          cases hsc : scanTemplates s.data with
          | nil => rw [hsc] at hmem; cases hmem
          | cons a l => rfl
        rcases substAll_error_of_missing fuel values key (scanTemplates s.data)
          (key :: resolving) s.data NAME hmem hmiss with ⟨e, he⟩
        exact ⟨e, by rw [resolveValue]; simp [hres, hne, he]⟩

theorem resolveEntries_error_of_missing (fuel : Nat) (values : List (String × Value))
    (l : List (String × Value)) (K s NAME : String)
    (hin : (K, Value.str s) ∈ l) (hmem : NAME ∈ scanTemplates s.data)
    (hmiss : lookupVal values NAME = none) :
    ∃ e, resolveEntries fuel values l = Except.error e := by
  induction l with
  | nil => cases hin
  | cons p rest ih =>
      obtain ⟨k, v⟩ := p
      rw [resolveEntries]
      rcases hv : resolveValue fuel values k v [] with e | rv
      · exact ⟨e, rfl⟩
      · rcases List.mem_cons.mp hin with h | h
        · have hval : Value.str s = v := congrArg Prod.snd h
          have hk : K = k := congrArg Prod.fst h
          subst hval
          rcases resolveValue_error_of_missing fuel values k s [] NAME hmem hmiss
            with ⟨e, he⟩
          rw [he] at hv
          cases hv
        · rcases ih h with ⟨e, he⟩
          exact ⟨e, by simp [he]⟩

theorem substAll_ok_refs (fuel : Nat) (values : List (String × Value))
    (key : String) (names : List String) (resolving : List String) (cur : List Char)
    (out : List Char) (NAME : String)
    (hok : substAll fuel values key names resolving cur = Except.ok out)
    (hmem : NAME ∈ names) : ∃ v, lookupVal values NAME = some v := by
  induction names generalizing cur with
  | nil => cases hmem
  | cons n rest ih =>
      rw [substAll] at hok
      rcases hn : lookupVal values n with _ | v
      · simp [hn] at hok
      · rcases List.mem_cons.mp hmem with h | h
        · exact ⟨v, h ▸ hn⟩
        · rcases hr : resolveValue fuel values n v resolving with e | rv
          · simp [hn, hr] at hok
          · simp only [hn, hr] at hok
            exact ih _ hok h

theorem resolveValue_ok_refs (fuel : Nat) (values : List (String × Value))
    (key s : String) (resolving : List String) (w : Value) (NAME : String)
    (hok : resolveValue fuel values key (Value.str s) resolving = Except.ok w)
    (hmem : NAME ∈ scanTemplates s.data) : ∃ v, lookupVal values NAME = some v := by
  cases fuel with
  | zero => rw [resolveValue] at hok; cases hok
  | succ fuel =>
      rw [resolveValue] at hok
      by_cases hres : key ∈ resolving
      · simp [hres] at hok
      · have hne : (scanTemplates s.data).isEmpty = false := by
          cases hsc : scanTemplates s.data with
          | nil => rw [hsc] at hmem; cases hmem
          | cons a l => rfl
        simp only [hres, if_false, hne, Bool.false_eq_true] at hok
        rcases hs : substAll fuel values key (scanTemplates s.data)
            (key :: resolving) s.data with e | chars
        · simp [hs] at hok
        · exact substAll_ok_refs fuel values key _ _ _ chars NAME hs hmem

theorem resolveEntries_ok_refs (fuel : Nat) (values : List (String × Value))
    (l : List (String × Value)) (r : List (String × Value)) (K s NAME : String)
    (hok : resolveEntries fuel values l = Except.ok r)
    (hin : (K, Value.str s) ∈ l) (hmem : NAME ∈ scanTemplates s.data) :
    ∃ v, lookupVal values NAME = some v := by
  induction l generalizing r with
  | nil => cases hin
  | cons p rest ih =>
      obtain ⟨k, v⟩ := p
      rw [resolveEntries] at hok
      rcases hv : resolveValue fuel values k v [] with e | rv
      · simp [hv] at hok
      · simp only [hv] at hok
        rcases hr : resolveEntries fuel values rest with e | rs
        · simp [hr] at hok
        · rcases List.mem_cons.mp hin with h | h
          · have hval : Value.str s = v := congrArg Prod.snd h
            subst hval
            exact resolveValue_ok_refs fuel values k s [] rv NAME hv hmem
          · exact ih rs hr h

/-- C4, counterexample: the map `{A:"$\x7bA\x7d", B:"$\x7bUNDEF\x7d"}` has a
string value referencing the undefined name UNDEF, yet resolution fails with
a circular-dependency error (the self-reference of A is hit first under this
iteration order), not with an undefined-reference error naming B and UNDEF. -/
theorem undefined_reference_counterexample :
    Resolve [("A", Value.str "$\x7bA\x7d"), ("B", Value.str "$\x7bUNDEF\x7d")]
      = Except.error (TemplateErr.circular "A")
    ∧ TemplateErr.circular "A" ≠ TemplateErr.undefined "UNDEF" "B" := by
  constructor
  · simp [Resolve, resolveEntries, resolveValue, substAll, scanTemplates,
      String.data, lookupVal, templatePattern]
  · decide

/-- C4, amended: a value map with a top-level string value holding an
occurrence `$\x7bNAME\x7d` whose NAME is not a key always fails to resolve —
though the reported error can be a circular-reference error found first
rather than the undefined-reference error — and on the spec's example
`A="$\x7bUNDEFINED\x7d"` the error is the undefined-reference error naming
both A and UNDEFINED; resolution succeeds only when every name referenced
from a top-level string value exists as a key. -/
theorem undefined_reference_behavior :
    (∀ (values : List (String × Value)) (K s NAME : String),
        (K, Value.str s) ∈ values → NAME ∈ scanTemplates s.data →
        lookupVal values NAME = none →
        ∃ e, Resolve values = Except.error e)
    ∧ (∀ (values resolved : List (String × Value)) (K s NAME : String),
        Resolve values = Except.ok resolved →
        (K, Value.str s) ∈ values → NAME ∈ scanTemplates s.data →
        ∃ v, lookupVal values NAME = some v)
    ∧ Resolve [("A", Value.str "$\x7bUNDEFINED\x7d")]
        = Except.error (TemplateErr.undefined "UNDEFINED" "A") := by
  refine ⟨?_, ?_, ?_⟩
  · intro values K s NAME hin hmem hmiss
    exact resolveEntries_error_of_missing _ values values K s NAME hin hmem hmiss
  · intro values resolved K s NAME hok hin hmem
    exact resolveEntries_ok_refs _ values values resolved K s NAME hok hin hmem
  · simp [Resolve, resolveEntries, resolveValue, substAll, scanTemplates,
      String.data, lookupVal, templatePattern]

/-- Witness for C4's amended theorem: the failure branch applied at the
one-entry map `A="$\x7bUNDEFINED\x7d"`. -/
theorem undefined_reference_behavior_witness :
    (("A", Value.str "$\x7bUNDEFINED\x7d")
        ∈ [("A", Value.str "$\x7bUNDEFINED\x7d")]
      ∧ "UNDEFINED" ∈ scanTemplates "$\x7bUNDEFINED\x7d".data
      ∧ lookupVal [("A", Value.str "$\x7bUNDEFINED\x7d")] "UNDEFINED" = none)
    ∧ ∃ e, Resolve [("A", Value.str "$\x7bUNDEFINED\x7d")] = Except.error e :=
  ⟨⟨List.mem_singleton.mpr rfl, by simp [scanTemplates, String.data],
    by simp [lookupVal]⟩,
   undefined_reference_behavior.1 [("A", Value.str "$\x7bUNDEFINED\x7d")] "A"
     "$\x7bUNDEFINED\x7d" "UNDEFINED" (List.mem_singleton.mpr rfl)
     (by simp [scanTemplates, String.data]) (by simp [lookupVal])⟩

theorem resolveEntries_keys (fuel : Nat) (values l r : List (String × Value))
    (hok : resolveEntries fuel values l = Except.ok r) :
    r.map Prod.fst = l.map Prod.fst := by
  induction l generalizing r with
  | nil => rw [resolveEntries] at hok; cases hok; rfl
  | cons p rest ih =>
      obtain ⟨k, v⟩ := p
      rw [resolveEntries] at hok
      rcases hv : resolveValue fuel values k v [] with e | rv
      · simp [hv] at hok
      · simp only [hv] at hok
        rcases hr : resolveEntries fuel values rest with e | rs
        · simp [hr] at hok
        · simp only [hr] at hok
          cases hok
          simp [ih rs hr]

theorem resolveValue_no_pattern (fuel : Nat) (values : List (String × Value))
    (k s : String) (w : Value)
    (hok : resolveValue fuel values k (Value.str s) [] = Except.ok w)
    (hscan : scanTemplates s.data = []) : w = Value.str s := by
  cases fuel with
  | zero => rw [resolveValue] at hok; cases hok
  | succ fuel =>
      rw [resolveValue] at hok
      simp [hscan] at hok
      exact hok.symm

theorem resolveEntries_passthrough (fuel : Nat) (values l r : List (String × Value))
    (k s : String) (hok : resolveEntries fuel values l = Except.ok r)
    (hin : (k, Value.str s) ∈ l) (hscan : scanTemplates s.data = []) :
    (k, Value.str s) ∈ r := by
  induction l generalizing r with
  | nil => cases hin
  | cons p rest ih =>
      obtain ⟨k', v⟩ := p
      rw [resolveEntries] at hok
      rcases hv : resolveValue fuel values k' v [] with e | rv
      · simp [hv] at hok
      · simp only [hv] at hok
        rcases hr : resolveEntries fuel values rest with e | rs
        · simp [hr] at hok
        · simp only [hr] at hok
          cases hok
          rcases List.mem_cons.mp hin with h | h
          · have hval : Value.str s = v := congrArg Prod.snd h
            have hk : k = k' := congrArg Prod.fst h
            subst hval
            subst hk
            have := resolveValue_no_pattern fuel values k s rv hv hscan
            simp [this]
          · exact List.mem_cons_of_mem _ (ih rs hr h)

/-- C5: when template resolution succeeds it returns a fresh map whose key
sequence equals the input's, a top-level string value containing no
`$\x7b...\x7d` pattern passes through unchanged, and on a concrete map the
engine substitutes the stringified referenced value
(`x$\x7bB\x7dy` with `B = 4` becomes `x4y`).  The Go code builds a fresh
`resolved` map and never writes to its input; the embedding mirrors that by
construction, `resolveEntries` assembling a new list. -/
theorem resolve_returns_fresh_map :
    (∀ (values resolved : List (String × Value)),
        Resolve values = Except.ok resolved →
        resolved.map Prod.fst = values.map Prod.fst)
    ∧ (∀ (values resolved : List (String × Value)) (k s : String),
        Resolve values = Except.ok resolved →
        (k, Value.str s) ∈ values → scanTemplates s.data = [] →
        (k, Value.str s) ∈ resolved)
    ∧ Resolve [("A", Value.str "x$\x7bB\x7dy"), ("B", Value.num 4)]
        = Except.ok [("A", Value.str "x4y"), ("B", Value.num 4)] := by
  refine ⟨?_, ?_, ?_⟩
  · intro values resolved hok
    exact resolveEntries_keys _ values values resolved hok
  · intro values resolved k s hok hin hscan
    exact resolveEntries_passthrough _ values values resolved k s hok hin hscan
  · simp [Resolve, resolveEntries, resolveValue, substAll, scanTemplates,
      String.data, lookupVal, templatePattern, replaceAllChars, goFormat,
      List.isPrefixOf, String.mk]
    rfl

/-- Witness for C5: the key-preservation branch applied at the concrete map
of the substitution example. -/
theorem resolve_returns_fresh_map_witness :
    Resolve [("A", Value.str "x$\x7bB\x7dy"), ("B", Value.num 4)]
        = Except.ok [("A", Value.str "x4y"), ("B", Value.num 4)]
    ∧ ([("A", Value.str "x4y"), ("B", Value.num 4)].map Prod.fst
        = [("A", Value.str "x$\x7bB\x7dy"), ("B", Value.num 4)].map Prod.fst) :=
  ⟨resolve_returns_fresh_map.2.2,
   resolve_returns_fresh_map.1 _ _ resolve_returns_fresh_map.2.2⟩

/-- C6, counterexample: `get` does not exclude underscore-prefixed keys —
requesting `_SECRET` from the resolved map `{_SECRET: "xyz"}` succeeds and
returns its value, where the claim demands exclusion from `get` results. -/
theorem get_underscore_counterexample :
    getValue [("_SECRET", Value.str "xyz")] "_SECRET" = Except.ok (Value.str "xyz") := by
  simp [getValue, Resolve, resolveEntries, resolveValue, scanTemplates,
    String.data, lookupVal]

/-- C6, amended: an underscore-prefixed key is usable as a template
substitution source (`PUBLIC="$\x7b_SECRET\x7d"` yields PUBLIC with the
substituted value), and `generate` excludes every underscore-prefixed (or
empty) key from the map it hands to the output formatters, so such keys never
reach formatted output; `get`, however, performs no underscore filtering and
returns the key's value when asked for it directly. -/
theorem underscore_filtering_behavior :
    (∀ (values : List (String × Value)) (k : String),
        k ∈ (filterExport values).map Prod.fst ↔
          (k ∈ values.map Prod.fst ∧ k ≠ "" ∧ startsWithUnderscore k = false))
    ∧ generateExport [("PUBLIC", Value.str "$\x7b_SECRET\x7d"),
        ("_SECRET", Value.str "xyz")]
        = Except.ok [("PUBLIC", Value.str "xyz")]
    ∧ formatEnv [("PUBLIC", Value.str "xyz")] = "PUBLIC=xyz" := by
  refine ⟨?_, ?_, ?_⟩
  · intro values k
    simp only [filterExport, List.mem_map, List.mem_filter, Bool.and_eq_true,
      Bool.not_eq_true', decide_eq_true_eq, ne_eq]
    constructor
    · rintro ⟨p, ⟨hp, hne, hsu⟩, rfl⟩
      exact ⟨⟨p, hp, rfl⟩, hne, hsu⟩
    · rintro ⟨⟨p, hp, rfl⟩, hne, hsu⟩
      exact ⟨p, ⟨hp, hne, hsu⟩, rfl⟩
  · simp [generateExport, Resolve, resolveEntries, resolveValue, substAll,
      scanTemplates, String.data, lookupVal, templatePattern, replaceAllChars,
      goFormat, List.isPrefixOf, filterExport, startsWithUnderscore]
  · rfl

/-- C7: removing a key from a document whose recipient set is exactly that
single key fails with the last-recipient error before anything is written,
and across a removal run the failing document (its recipient metadata and
its content) survives unchanged in the resulting directory state, with the
error naming some document of the run (the failing one). -/
theorem remove_last_recipient_blocks :
    (∀ (f : EncFile) (k : String),
        f.keyGroups.any (fun g => g.any (fun x => x = k)) = true →
        (∀ g ∈ f.keyGroups, ∀ x ∈ g, x = k) →
        removeKeyFromFile f k = Except.error RemoveErr.lastKey)
    ∧ (∀ (files : List (Path × EncFile)) (p : Path) (f : EncFile) (k : String),
        (p, f) ∈ files →
        f.keyGroups.any (fun g => g.any (fun x => x = k)) = true →
        (∀ g ∈ f.keyGroups, ∀ x ∈ g, x = k) →
        (∃ q, (removeKeyFromFiles files k).2 = some (q, RemoveErr.lastKey))
          ∧ (p, f) ∈ (removeKeyFromFiles files k).1) := by
  have base : ∀ (f : EncFile) (k : String),
      f.keyGroups.any (fun g => g.any (fun x => x = k)) = true →
      (∀ g ∈ f.keyGroups, ∀ x ∈ g, x = k) →
      removeKeyFromFile f k = Except.error RemoveErr.lastKey := by
    intro f k hfound hall
    have hempty : (f.keyGroups.map (fun g => g.filter (fun x => x ≠ k))).all
        (fun g => g.isEmpty) = true := by
      rw [List.all_eq_true]
      intro g' hg'
      rcases List.mem_map.mp hg' with ⟨g, hg, rfl⟩
      have hnil : g.filter (fun x => x ≠ k) = [] := by
        rw [List.filter_eq_nil_iff]
        intro x hx
        simp [hall g hg x hx]
      rw [hnil]
      rfl
    simp only [removeKeyFromFile, hfound, hempty, Bool.not_true, Bool.false_eq_true,
      if_false, if_true]
  refine ⟨base, ?_⟩
  intro files p f k hin hfound hall
  induction files with
  | nil => cases hin
  | cons q rest ih =>
      obtain ⟨p', f'⟩ := q
      rcases hrm : removeKeyFromFile f' k with e | f''
      · cases e
        refine ⟨⟨p', by simp [removeKeyFromFiles, hrm]⟩, ?_⟩
        simp only [removeKeyFromFiles, hrm]
        exact hin
      · rcases List.mem_cons.mp hin with h | h
        · have hf : f = f' := congrArg Prod.snd h
          rw [← hf] at hrm
          rw [base f k hfound hall] at hrm
          cases hrm
        · rcases ih h with ⟨⟨q', hq'⟩, hmem⟩
          refine ⟨⟨q', ?_⟩, ?_⟩
          · simp [removeKeyFromFiles, hrm, hq']
          · simp only [removeKeyFromFiles, hrm]
            exact List.mem_cons_of_mem _ hmem

/-- Witness for C7: a single document whose only recipient is the removed
key `k`. -/
theorem remove_last_recipient_blocks_witness :
    ((EncFile.mk [["k"]] [("A", Value.str "v")]).keyGroups.any
        (fun g => g.any (fun x => x = "k")) = true
      ∧ ∀ g ∈ (EncFile.mk [["k"]] [("A", Value.str "v")]).keyGroups,
          ∀ x ∈ g, x = "k")
    ∧ removeKeyFromFile (EncFile.mk [["k"]] [("A", Value.str "v")]) "k"
        = Except.error RemoveErr.lastKey :=
  ⟨⟨by decide, by decide⟩,
   remove_last_recipient_blocks.1 (EncFile.mk [["k"]] [("A", Value.str "v")]) "k"
     (by decide) (by decide)⟩

/-- A directory state exercising the ledger update of `RemoveKey`: the key
`k` is a recipient of an encrypted document in `dev` and one in `prod`. -/
def removeLedgerState : KeyState :=
  ⟨⟨["k", "k2", "k3"], [("k", "alice")]⟩,
   [(["dev", "api.yml"], DiskFile.enc ⟨[["k", "k3"]], []⟩),
    (["prod", "api.yml"], DiskFile.enc ⟨[["k", "k2"]], []⟩)]⟩

/-- C8, counterexample: removing `k` with the environment filter `prod`
succeeds, drops `k` from the Ledger — yet `k` is still a recipient of the
`dev` document, which the filter excluded.  The claim demands that the
Ledger keep listing a key that remains a recipient of some document. -/
theorem ledger_drop_counterexample :
    (RemoveKey removeLedgerState "k" "prod").2.isNone = true
    ∧ (RemoveKey removeLedgerState "k" "prod").1.ledger.keys = ["k2", "k3"]
    ∧ ((RemoveKey removeLedgerState "k" "prod").1.disk.any (fun pf =>
        match pf.2 with
        | DiskFile.enc f => f.keyGroups.any (fun g => g.any (fun x => x = "k"))
        | DiskFile.other => false)) = true := by
  refine ⟨by decide, by decide, by decide⟩

/-- C8, amended: `RemoveKey` updates the Ledger before touching any
document and drops the key from it unconditionally — whenever the key was
listed and at least one encrypted document matched the filter, the resulting
Ledger is the old one with the key removed, regardless of whether the key
remains a recipient of documents outside the filter or of documents whose
removal later fails. -/
theorem ledger_unconditional_drop (st : KeyState) (ageKey envFilter : String)
    (hmem : ageKey ∈ st.ledger.keys)
    (hne : (findEncryptedFiles st.disk envFilter).isEmpty = false) :
    (RemoveKey st ageKey envFilter).1.ledger.keys
      = st.ledger.keys.filter (fun x => x ≠ ageKey) := by
  simp [RemoveKey, hne, removeKeyFromSOPSConfig, hmem]

/-- Witness for C8's amended theorem at the counterexample state. -/
theorem ledger_unconditional_drop_witness :
    ("k" ∈ removeLedgerState.ledger.keys
      ∧ (findEncryptedFiles removeLedgerState.disk "prod").isEmpty = false)
    ∧ (RemoveKey removeLedgerState "k" "prod").1.ledger.keys
        = removeLedgerState.ledger.keys.filter (fun x => x ≠ "k") :=
  ⟨⟨by decide, by decide⟩,
   ledger_unconditional_drop removeLedgerState "k" "prod" (by decide) (by decide)⟩

/-- C9: in the load loop a candidate location that is missing on disk is
silently skipped — deleting it from the candidate list does not change the
result — while every other read, decrypt or parse failure aborts resolution
with an error that names the failing location (its path is a candidate, and
what the store holds there is neither a missing file nor a parsed
document). -/
theorem load_error_policy :
    (∀ (fs : Path → FileData) (xs ys : List Path) (p : Path)
        (acc : List (String × Value)), fs p = FileData.missing →
        loadFiles fs (xs ++ p :: ys) acc = loadFiles fs (xs ++ ys) acc)
    ∧ (∀ (fs : Path → FileData) (files : List Path) (acc : List (String × Value))
        (err : LoadErr), loadFiles fs files acc = Except.error err →
        err.path ∈ files ∧ fs err.path ≠ FileData.missing
          ∧ ∀ vs, fs err.path ≠ FileData.plain vs) := by
  constructor
  · intro fs xs ys p acc hp
    induction xs generalizing acc with
    | nil => simp [loadFiles, hp]
    | cons x xs ih =>
        cases hx : fs x <;> simp [loadFiles, hx, ih]
  · intro fs files acc err hok
    induction files generalizing acc with
    | nil => rw [loadFiles] at hok; cases hok
    | cons p rest ih =>
        rw [loadFiles] at hok
        cases hp : fs p <;> rw [hp] at hok
        · rcases ih _ hok with ⟨hmem, hnm, hnp⟩
          exact ⟨List.mem_cons_of_mem _ hmem, hnm, hnp⟩
        · cases hok
          exact ⟨List.mem_cons_self _ _, by simp [hp], by simp [hp]⟩
        · cases hok
          exact ⟨List.mem_cons_self _ _, by simp [hp], by simp [hp]⟩
        · cases hok
          exact ⟨List.mem_cons_self _ _, by simp [hp], by simp [hp]⟩
        · rcases ih _ hok with ⟨hmem, hnm, hnp⟩
          exact ⟨List.mem_cons_of_mem _ hmem, hnm, hnp⟩

/-- Witness for C9: skipping a concrete missing location between two
readable ones leaves the merged result unchanged. -/
theorem load_error_policy_witness :
    ((fun p => if p = ["gone.yml"] then FileData.missing
        else FileData.plain [("A", Value.num 1)]) (["gone.yml"] : Path)
      = FileData.missing)
    ∧ loadFiles
        (fun p => if p = ["gone.yml"] then FileData.missing
          else FileData.plain [("A", Value.num 1)])
        ([["base.yml"]] ++ ["gone.yml"] :: [["env.yml"]]) []
      = loadFiles
        (fun p => if p = ["gone.yml"] then FileData.missing
          else FileData.plain [("A", Value.num 1)])
        ([["base.yml"]] ++ [["env.yml"]]) [] :=
  ⟨rfl,
   load_error_policy.1
     (fun p => if p = ["gone.yml"] then FileData.missing
       else FileData.plain [("A", Value.num 1)])
     [["base.yml"]] [["env.yml"]] ["gone.yml"] [] rfl⟩

theorem charListLe_total (as bs : List Char) :
    charListLe as bs = true ∨ charListLe bs as = true := by
  induction as generalizing bs with
  | nil => left; rfl
  | cons a as ih =>
      cases bs with
      | nil => right; rfl
      | cons b bs =>
          rcases lt_trichotomy a b with h | h | h
          · left; simp [charListLe, h]
          · subst h
            rcases ih bs with h2 | h2
            · left; simp [charListLe, lt_irrefl, h2]
            · right; simp [charListLe, lt_irrefl, h2]
          · right; simp [charListLe, h]

theorem charListLe_trans (as bs cs : List Char) (h1 : charListLe as bs = true)
    (h2 : charListLe bs cs = true) : charListLe as cs = true := by
  induction as generalizing bs cs with
  | nil => rfl
  | cons a as ih =>
      cases bs with
      | nil => simp [charListLe] at h1
      | cons b bs =>
          cases cs with
          | nil => simp [charListLe] at h2
          | cons c cs =>
              simp only [charListLe] at h1 h2 ⊢
              rcases lt_trichotomy a b with hab | hab | hab
              · rcases lt_trichotomy b c with hbc | hbc | hbc
                · simp [lt_trans hab hbc]
                · subst hbc; simp [hab]
                · have hnbc : ¬ b < c := not_lt_of_gt hbc
                  simp [hnbc, hbc] at h2
              · subst hab
                simp only [lt_irrefl, if_false] at h1
                rcases lt_trichotomy a c with hac | hac | hac
                · simp [hac]
                · subst hac
                  simp only [lt_irrefl, if_false] at h2 ⊢
                  exact ih bs cs h1 h2
                · have hnac : ¬ a < c := not_lt_of_gt hac
                  simp [hnac, hac] at h2
              · have hnab : ¬ a < b := not_lt_of_gt hab
                simp [hnab, hab] at h1

theorem map_fst_orderedInsert {β : Type} (p : String × β) (l : List (String × β)) :
    (List.orderedInsert (fun a b => strLe a.1 b.1) p l).map Prod.fst
      = List.orderedInsert strLe p.1 (l.map Prod.fst) := by
  induction l with
  | nil => rfl
  | cons q rest ih =>
      simp only [List.orderedInsert, List.map_cons]
      by_cases h : strLe p.1 q.1
      · rw [if_pos h, if_pos h]
        rfl
      · rw [if_neg h, if_neg h]
        simp only [List.map_cons]
        rw [ih]

theorem map_fst_sortByKey {β : Type} (l : List (String × β)) :
    (sortByKey l).map Prod.fst = sortStrings (l.map Prod.fst) := by
  induction l with
  | nil => rfl
  | cons p rest ih =>
      simp only [sortByKey, sortStrings, List.insertionSort] at *
      rw [map_fst_orderedInsert, ih]

theorem lookupVal_of_mem (values : List (String × Value)) (k : String) (v : Value)
    (hnd : (values.map Prod.fst).Nodup) (hin : (k, v) ∈ values) :
    lookupVal values k = some v := by
  induction values with
  | nil => cases hin
  | cons p rest ih =>
      obtain ⟨k', v'⟩ := p
      simp only [List.map_cons, List.nodup_cons] at hnd
      rcases List.mem_cons.mp hin with h | h
      · have hk : k = k' := congrArg Prod.fst h
        have hv : v = v' := congrArg Prod.snd h
        simp [lookupVal, hk.symm, hv]
      · have hne : k' ≠ k := by
          intro hkk
          exact hnd.1 (hkk ▸ List.mem_map.mpr ⟨(k, v), h, rfl⟩)
        simp [lookupVal, hne, ih hnd.2 h]

/-- C10: the `.env` encoding agrees with the spec's description — entries in
lexicographic key order (the insertion sort is sorted and is a permutation),
one `KEY=VALUE` line per key, nested maps and sequences rendered as compact
JSON — and a value is wrapped in escaped double quotes exactly when it
contains a space, tab, newline, carriage return, double or single quote,
dollar sign, or backslash. -/
theorem formatEnv_matches_spec :
    (∀ values : List (String × Value), (values.map Prod.fst).Nodup →
        formatEnv values = formatEnvSpec values)
    ∧ (∀ s : String, needsQuoting s = true ↔
        ∃ c ∈ s.data, c ∈ [' ', '\t', '\n', '\r', '"', squote, '$', '\\'])
    ∧ (∀ l : List String, List.Sorted strLe (sortStrings l)) := by
  have hiff : ∀ s : String, needsQuoting s = true ↔
      ∃ c ∈ s.data, c ∈ [' ', '\t', '\n', '\r', '"', squote, '$', '\\'] := by
    intro s
    simp [needsQuoting]
  refine ⟨?_, hiff, ?_⟩
  · intro values hnd
    simp only [formatEnv, formatEnvSpec]
    rw [← map_fst_sortByKey, List.map_map]
    congr 1
    refine List.map_congr_left ?_
    intro p hp
    have hpv : p ∈ values := (List.perm_insertionSort _ values).mem_iff.mp hp
    have hl : lookupVal values p.1 = some p.2 :=
      lookupVal_of_mem values p.1 p.2 hnd (by exact hpv)
    have hdq : ∀ s : String,
        decide (∃ c ∈ s.data, c ∈ [' ', '\t', '\n', '\r', '"', squote, '$', '\\'])
          = needsQuoting s := by
      intro s
      by_cases h : ∃ c ∈ s.data, c ∈ [' ', '\t', '\n', '\r', '"', squote, '$', '\\']
      · rw [decide_eq_true h, (hiff s).mpr h]
      · rw [decide_eq_false h]
        cases hq : needsQuoting s
        · rfl
        · exact absurd ((hiff s).mp hq) h
    simp only [Function.comp, envLine, hl, Option.getD_some, hdq]
  · intro l
    haveI : IsTotal String strLe := ⟨fun a b => charListLe_total a.data b.data⟩
    haveI : IsTrans String strLe :=
      ⟨fun a b c => charListLe_trans a.data b.data c.data⟩
    exact List.sorted_insertionSort _ l

/-- Witness for C10: the refinement applied at a concrete two-entry map,
plus the concrete rendering with keys reordered lexicographically. -/
theorem formatEnv_matches_spec_witness :
    (([("B", Value.str "hello"), ("A", Value.str "world")].map
        (Prod.fst (α := String) (β := Value))).Nodup)
    ∧ formatEnv [("B", Value.str "hello"), ("A", Value.str "world")]
        = formatEnvSpec [("B", Value.str "hello"), ("A", Value.str "world")]
    ∧ formatEnv [("B", Value.str "hello"), ("A", Value.str "world")]
        = "A=world\nB=hello" :=
  ⟨by decide,
   formatEnv_matches_spec.1 [("B", Value.str "hello"), ("A", Value.str "world")]
     (by decide),
   by decide⟩

/-- Witness for C1 at the spec's nested-map example. -/
theorem merge_per_key_semantics_witness :
    (([("N", Value.map [("Y", Value.num 3)])].map
        (Prod.fst (α := String) (β := Value))).Nodup)
    ∧ lookupVal (mergeEntries [("N", Value.map [("X", Value.num 1), ("Y", Value.num 2)])]
        [("N", Value.map [("Y", Value.num 3)])]) "N"
      = mergeLookupSpec
          (lookupVal [("N", Value.map [("X", Value.num 1), ("Y", Value.num 2)])] "N")
          (lookupVal [("N", Value.map [("Y", Value.num 3)])] "N") :=
  ⟨by decide, merge_per_key_semantics.1 _ _ "N" (by decide)⟩

end Puff
